import Mathlib

/-!
Verification development for the Learning-Go repository.

The repository is a tutorial of Go idioms.  The only stateful component its
specification describes is the bounded producer/consumer handoff built on
Go's buffered channels (used in `main.go` and the unnamed source part around
the producer/consumer demonstrations), together with a mutex-protected
counter, error wrapping, panic/recover control flow and a small division
helper from the test file.

The channel itself is a language builtin: the repository contains only its
callers.  Following the specification's operation contract (section 4.1),
the bounded queue below is modelled from the spec.
-/

/-- Modelled from the spec: the bounded queue of section 4.1 of the
specification (Go's built-in buffered channel, whose implementation is not
part of this repository; the repository only calls it).  A queue is an
ordered fixed-capacity sequence of messages with a one-way closed flag. -/
structure Queue where
  capacity : Nat
  buffer : List Int
  closed : Bool
deriving DecidableEq, Repr

/-- Number of buffered values. -/
def Queue.size (q : Queue) : Nat := q.buffer.length

/-- A fresh queue: created empty and open, with a declared capacity. -/
def Queue.new (c : Nat) : Queue := ⟨c, [], false⟩

/-- Outcome of an enqueue attempt.  `blocked` and `closedError` carry the
unchanged queue state: a send that cannot complete (full queue) suspends
the sender, and a send on a closed queue is a usage error (a Go panic);
in both cases the queue itself is untouched. -/
inductive EnqueueResult where
  | ok (q : Queue)
  | blocked (q : Queue)
  | closedError (q : Queue)
deriving DecidableEq, Repr

/-- Modelled from the spec: `enqueue(value)` blocks while size == capacity;
fails (usage error) if called after close; otherwise appends. -/
def enqueue (q : Queue) (v : Int) : EnqueueResult :=
  if q.closed then .closedError q
  else if q.size = q.capacity then .blocked q
  else .ok ⟨q.capacity, q.buffer ++ [v], q.closed⟩

/-- Outcome of a dequeue attempt.  `received v b q` means the call returned
the pair `(v, b)` and left the queue in state `q`; `b = true` marks a real
buffered value, `b = false` the zero value reported once the queue is
closed and drained.  `blocked` means the call suspends (empty open queue). -/
inductive DequeueResult where
  | received (v : Int) (isOpen : Bool) (q : Queue)
  | blocked
deriving DecidableEq, Repr

/-- Modelled from the spec: `dequeue()` blocks while size == 0 and the queue
is not closed; returns `(value, true)` if a value was available; returns
`(zero, false)` once the queue is closed and drained. -/
def dequeue (q : Queue) : DequeueResult :=
  match q.buffer with
  | v :: rest => .received v true ⟨q.capacity, rest, q.closed⟩
  | [] => if q.closed then .received 0 false q else .blocked

/-- Outcome of a close attempt: closing twice is a usage error. -/
inductive CloseResult where
  | ok (q : Queue)
  | doubleCloseError
deriving DecidableEq, Repr

/-- Modelled from the spec: `close()` transitions the closed flag to true;
must be called at most once. -/
def closeQ (q : Queue) : CloseResult :=
  if q.closed then .doubleCloseError else .ok ⟨q.capacity, q.buffer, true⟩

/-- Run `n` consecutive dequeues, collecting the returned pairs; `none` if
any of them would block. -/
def dequeueSteps : Queue → Nat → Option (List (Int × Bool) × Queue)
  | q, 0 => some ([], q)
  | q, n + 1 =>
    match dequeue q with
    | .received v b q1 =>
      match dequeueSteps q1 n with
      | some (rs, q2) => some ((v, b) :: rs, q2)
      | none => none
    | .blocked => none

/-- Enqueue a whole list of values in order; `none` if any enqueue fails to
complete (blocks or hits a closed queue). -/
def enqueueAll : Queue → List Int → Option Queue
  | q, [] => some q
  | q, v :: vs =>
    match enqueue q v with
    | .ok q1 => enqueueAll q1 vs
    | .blocked _ => none
    | .closedError _ => none

/-- One visible transition of a queue: a completed enqueue, a completed
dequeue of a buffered value, or a close. -/
inductive QStep : Queue → Queue → Prop
  | enq (q q1 : Queue) (v : Int) : enqueue q v = .ok q1 → QStep q q1
  | deq (q q1 : Queue) (v : Int) (b : Bool) :
      dequeue q = .received v b q1 → QStep q q1
  | cls (q q1 : Queue) : closeQ q = .ok q1 → QStep q q1

/-- States a queue can reach from a given initial state through completed
operations. -/
inductive QReachable (init : Queue) : Queue → Prop
  | refl : QReachable init init
  | step {q q1 : Queue} : QReachable init q → QStep q q1 → QReachable init q1

-- Basic facts about the queue operations.

theorem enqueue_ok_buffer {q q1 : Queue} {v : Int} (h : enqueue q v = .ok q1) :
    q1.buffer = q.buffer ++ [v] ∧ q1.capacity = q.capacity ∧
    q1.closed = q.closed ∧ q.closed = false ∧ q.size ≠ q.capacity := by
  unfold enqueue at h
  by_cases hc : q.closed
  · simp [hc] at h
  · by_cases hf : q.size = q.capacity
    · simp [hc, hf] at h
    · simp [hc, hf] at h
      subst h
      simp at hc
      exact ⟨rfl, rfl, hc.symm, hc, hf⟩

theorem dequeue_received {q q1 : Queue} {v : Int} {b : Bool}
    (h : dequeue q = .received v b q1) :
    q1.capacity = q.capacity ∧ q1.closed = q.closed ∧ q1.size ≤ q.size := by
  unfold dequeue at h
  cases hb : q.buffer with
  | nil =>
    simp [hb] at h
    by_cases hc : q.closed
    · simp [hc] at h
      obtain ⟨_, _, h3⟩ := h
      simp [h3.symm]
    · simp [hc] at h
  | cons x rest =>
    simp [hb] at h
    obtain ⟨_, _, h3⟩ := h
    subst h3
    simp [Queue.size, hb]

theorem closeQ_ok {q q1 : Queue} (h : closeQ q = .ok q1) :
    q1.capacity = q.capacity ∧ q1.buffer = q.buffer ∧ q1.closed = true := by
  unfold closeQ at h
  by_cases hc : q.closed
  · simp [hc] at h
  · simp [hc] at h
    subst h
    exact ⟨rfl, rfl, rfl⟩

theorem enqueueAll_shape :
    ∀ (vs : List Int) (q q1 : Queue), enqueueAll q vs = some q1 →
      q1.buffer = q.buffer ++ vs ∧ q1.capacity = q.capacity ∧
      q1.closed = q.closed := by
  intro vs
  induction vs with
  | nil => intro q q1 h; simp [enqueueAll] at h; simp [h]
  | cons v rest ih =>
    intro q q1 h
    unfold enqueueAll at h
    cases he : enqueue q v with
    | ok q2 =>
      rw [he] at h
      obtain ⟨hb, hcap, hcl, _, _⟩ := enqueue_ok_buffer he
      obtain ⟨ihb, ihcap, ihcl⟩ := ih q2 q1 h
      refine ⟨?_, by rw [ihcap, hcap], by rw [ihcl, hcl]⟩
      rw [ihb, hb, List.append_assoc]
      rfl
    | blocked q2 => rw [he] at h; simp at h
    | closedError q2 => rw [he] at h; simp at h

theorem dequeueSteps_drain :
    ∀ (buf : List Int) (cap : Nat) (c : Bool),
      dequeueSteps ⟨cap, buf, c⟩ buf.length =
        some (buf.map (fun v => (v, true)), ⟨cap, [], c⟩) := by
  intro buf
  induction buf with
  | nil => intro cap c; rfl
  | cons v rest ih =>
    intro cap c
    show dequeueSteps ⟨cap, v :: rest, c⟩ (rest.length + 1) = _
    have step : dequeueSteps ⟨cap, v :: rest, c⟩ (rest.length + 1) =
        match dequeueSteps ⟨cap, rest, c⟩ rest.length with
        | some (rs, q2) => some ((v, true) :: rs, q2)
        | none => none := rfl
    rw [step, ih cap c]
    rfl

theorem dequeueSteps_drained :
    ∀ (n : Nat) (cap : Nat),
      dequeueSteps ⟨cap, [], true⟩ n =
        some (List.replicate n ((0 : Int), false), ⟨cap, [], true⟩) := by
  intro n
  induction n with
  | zero => intro cap; rfl
  | succ k ih =>
    intro cap
    have step : dequeueSteps ⟨cap, [], true⟩ (k + 1) =
        match dequeueSteps ⟨cap, [], true⟩ k with
        | some (rs, q2) => some (((0 : Int), false) :: rs, q2)
        | none => none := rfl
    rw [step, ih cap]
    rfl

theorem reachable_capacity_and_size :
    ∀ (C : Nat) (q : Queue), QReachable (Queue.new C) q →
      q.capacity = C ∧ q.size ≤ q.capacity := by
  intro C q h
  induction h with
  | refl => simp [Queue.new, Queue.size]
  | step _ hs ih =>
    obtain ⟨ihcap, ihle⟩ := ih
    cases hs with
    | enq v he =>
      obtain ⟨hb, hcap, _, _, hne⟩ := enqueue_ok_buffer he
      refine ⟨by rw [hcap, ihcap], ?_⟩
      rw [hcap]
      have hlt := Nat.lt_of_le_of_ne ihle hne
      simp only [Queue.size, hb, List.length_append, List.length_cons,
        List.length_nil] at *
      omega
    | deq v b hd =>
      obtain ⟨hcap, _, hle⟩ := dequeue_received hd
      exact ⟨by rw [hcap, ihcap], by rw [hcap]; exact le_trans hle ihle⟩
    | cls hc =>
      obtain ⟨hcap, hb, _⟩ := closeQ_ok hc
      exact ⟨by rw [hcap, ihcap], by rw [hcap]; simpa [Queue.size, hb] using ihle⟩

/-- Claim C1: if a queue is closed while it still holds N buffered values,
exactly N further dequeues succeed, each returning one of the buffered
values with the open flag true, and every dequeue after those N reports the
queue as closed (the zero value paired with false). -/
theorem closed_queue_drains_exactly_buffered (q : Queue) (N : Nat)
    (hc : q.closed = true) (hn : q.buffer.length = N) :
    dequeueSteps q N =
      some (q.buffer.map (fun v => (v, true)), ⟨q.capacity, [], true⟩) ∧
    ∀ k, dequeueSteps ⟨q.capacity, [], true⟩ k =
      some (List.replicate k ((0 : Int), false), ⟨q.capacity, [], true⟩) := by
  obtain ⟨cap, buf, cl⟩ := q
  simp only at hc
  subst hc
  subst hn
  exact ⟨dequeueSteps_drain buf cap true, fun k => dequeueSteps_drained k cap⟩

theorem closed_queue_drains_exactly_buffered_witness :
    dequeueSteps ⟨5, [3, 4], true⟩ 2 =
      some ([((3 : Int), true), (4, true)], ⟨5, [], true⟩) ∧
    dequeueSteps ⟨5, [], true⟩ 1 = some ([((0 : Int), false)], ⟨5, [], true⟩) :=
  ⟨(closed_queue_drains_exactly_buffered ⟨5, [3, 4], true⟩ 2 rfl rfl).1,
   (closed_queue_drains_exactly_buffered ⟨5, [3, 4], true⟩ 2 rfl rfl).2 1⟩

/-- Claim C2: for a queue created with capacity C, the size never exceeds C
in any reachable state; after C successful enqueues with no intervening
dequeue the next enqueue blocks with the state unchanged, and it stays
blocked until a dequeue occurs: once a dequeue returns a value, the
enqueue completes. -/
theorem queue_size_bounded_and_full_enqueue_blocks :
    (∀ (C : Nat) (q : Queue), QReachable (Queue.new C) q →
      q.size ≤ q.capacity) ∧
    (∀ (C : Nat) (vs : List Int) (q : Queue) (v : Int),
      vs.length = C → enqueueAll (Queue.new C) vs = some q →
      enqueue q v = .blocked q ∧
      ∀ w q1, dequeue q = .received w true q1 →
        ∃ q2, enqueue q1 v = .ok q2) := by
  constructor
  · intro C q h
    exact (reachable_capacity_and_size C q h).2
  · intro C vs q v hlen hall
    obtain ⟨hb, hcap, hcl⟩ := enqueueAll_shape vs (Queue.new C) q hall
    simp only [Queue.new, List.nil_append] at hb hcap hcl
    constructor
    · simp [enqueue, hcl, Queue.size, hb, hcap, hlen]
    · intro w q1 hd
      unfold dequeue at hd
      rw [hb] at hd
      cases vs with
      | nil => simp [hcl] at hd
      | cons x rest =>
        simp only [DequeueResult.received.injEq] at hd
        obtain ⟨hw, _, hq1⟩ := hd
        subst hq1
        refine ⟨⟨C, rest ++ [v], false⟩, ?_⟩
        have hne : rest.length ≠ C := by
          simp only [List.length_cons] at hlen
          omega
        simp [enqueue, Queue.size, hcl, hcap, hne]

theorem queue_size_bounded_and_full_enqueue_blocks_witness :
    (Queue.new 1).size ≤ (Queue.new 1).capacity ∧
    enqueue ⟨1, [9], false⟩ 7 = .blocked ⟨1, [9], false⟩ :=
  ⟨queue_size_bounded_and_full_enqueue_blocks.1 1 (Queue.new 1) QReachable.refl,
   (queue_size_bounded_and_full_enqueue_blocks.2 1 [9] ⟨1, [9], false⟩ 7
      rfl rfl).1⟩

/-- Claim C3: dequeue blocks exactly while the queue is empty and open;
returns the head value with flag true when a value is buffered; and returns
the zero value with flag false once the queue is closed and drained. -/
theorem dequeue_contract (q : Queue) :
    (q.buffer = [] → q.closed = false → dequeue q = .blocked) ∧
    (∀ v rest, q.buffer = v :: rest →
      dequeue q = .received v true ⟨q.capacity, rest, q.closed⟩) ∧
    (q.buffer = [] → q.closed = true → dequeue q = .received 0 false q) := by
  refine ⟨?_, ?_, ?_⟩
  · intro hb hc; unfold dequeue; rw [hb]; simp [hc]
  · intro v rest hb; unfold dequeue; rw [hb]
  · intro hb hc; unfold dequeue; rw [hb]; simp [hc]

theorem dequeue_contract_witness :
    dequeue ⟨2, [], false⟩ = .blocked ∧
    dequeue ⟨2, [5], false⟩ = .received 5 true ⟨2, [], false⟩ ∧
    dequeue ⟨2, [], true⟩ = .received 0 false ⟨2, [], true⟩ :=
  ⟨(dequeue_contract ⟨2, [], false⟩).1 rfl rfl,
   (dequeue_contract ⟨2, [5], false⟩).2.1 5 [] rfl,
   (dequeue_contract ⟨2, [], true⟩).2.2 rfl rfl⟩

/-- Claim C4: every enqueue on a closed queue fails as a usage error, and
the failing call leaves the queue state (buffered contents and closed flag)
unchanged: the reported state is the very queue the call received. -/
theorem enqueue_after_close_fails (q : Queue) (v : Int)
    (hc : q.closed = true) : enqueue q v = .closedError q := by
  unfold enqueue
  simp [hc]

theorem enqueue_after_close_fails_witness :
    enqueue ⟨3, [1], true⟩ 2 = .closedError ⟨3, [1], true⟩ :=
  enqueue_after_close_fails ⟨3, [1], true⟩ 2 rfl

/-- Claim C5: values from a single producer are dequeued in the order they
were enqueued (FIFO), and the capacity-3 scenario behaves as specified:
1, 2, 3 enqueue without blocking, enqueueing 4 blocks, one dequeue returns
1, the pending enqueue of 4 then completes, and the remaining drained
sequence is exactly 2, 3, 4. -/
theorem fifo_order_and_capacity3_scenario :
    (∀ (C : Nat) (vs : List Int) (q : Queue), vs.length ≤ C →
      enqueueAll (Queue.new C) vs = some q →
      dequeueSteps q vs.length =
        some (vs.map (fun v => (v, true)), ⟨C, [], false⟩)) ∧
    (enqueueAll (Queue.new 3) [1, 2, 3] = some ⟨3, [1, 2, 3], false⟩ ∧
     enqueue ⟨3, [1, 2, 3], false⟩ 4 = .blocked ⟨3, [1, 2, 3], false⟩ ∧
     dequeue ⟨3, [1, 2, 3], false⟩ = .received 1 true ⟨3, [2, 3], false⟩ ∧
     enqueue ⟨3, [2, 3], false⟩ 4 = .ok ⟨3, [2, 3, 4], false⟩ ∧
     dequeueSteps ⟨3, [2, 3, 4], false⟩ 3 =
       some ([((2 : Int), true), (3, true), (4, true)], ⟨3, [], false⟩)) := by
  constructor
  · intro C vs q _ hall
    obtain ⟨hb, hcap, hcl⟩ := enqueueAll_shape vs (Queue.new C) q hall
    simp only [Queue.new, List.nil_append] at hb hcap hcl
    have hq : q = ⟨C, vs, false⟩ := by
      obtain ⟨qc, qb, qcl⟩ := q
      simp only at hb hcap hcl
      rw [hb, hcap, hcl]
    subst hq
    exact dequeueSteps_drain vs C false
  · refine ⟨by decide, by decide, by decide, by decide, by decide⟩

theorem fifo_order_and_capacity3_scenario_witness :
    dequeueSteps ⟨2, [5, 7], false⟩ 2 =
      some ([((5 : Int), true), (7, true)], ⟨2, [], false⟩) :=
  fifo_order_and_capacity3_scenario.1 2 [5, 7] ⟨2, [5, 7], false⟩
    (by decide) rfl

/-- A queue is ready for a receive: it has a buffered value, or it is
closed (a receive completes immediately with the zero value). -/
def ready (q : Queue) : Bool := !q.buffer.isEmpty || q.closed

/-- Outcome of a non-blocking select over several queues. -/
inductive SelectResult where
  | received (idx : Nat) (v : Int) (isOpen : Bool)
  | nothingReady
deriving DecidableEq, Repr

/-- Helper for `trySelect`: scan the queues, `i` the index of the head. -/
def trySelectAux : Nat → List Queue → SelectResult
  | _, [] => .nothingReady
  | i, q :: qs =>
    match q.buffer with
    | v :: _ => .received i v true
    | [] => if q.closed then .received i 0 false else trySelectAux (i + 1) qs

/-- Modelled from the spec: `trySelect(queues...)` performs a non-blocking
receive across multiple queues (a Go `select` with a `default` branch),
returning the first ready one, or reporting nothing ready. -/
def trySelect (qs : List Queue) : SelectResult := trySelectAux 0 qs

theorem trySelectAux_spec :
    ∀ (qs : List Queue) (n : Nat),
      (trySelectAux n qs = .nothingReady ↔ ∀ q ∈ qs, ready q = false) ∧
      (∀ i v b, trySelectAux n qs = .received i v b →
        n ≤ i ∧ i - n < qs.length ∧
        ready (qs.getD (i - n) (Queue.new 0)) = true) := by
  intro qs
  induction qs with
  | nil =>
    intro n
    refine ⟨by simp [trySelectAux], ?_⟩
    intro i v b h
    simp [trySelectAux] at h
  | cons q rest ih =>
    intro n
    cases hb : q.buffer with
    | cons x xs =>
      have hr : ready q = true := by simp [ready, hb]
      have ht : trySelectAux n (q :: rest) = .received n x true := by
        unfold trySelectAux
        rw [hb]
      refine ⟨by simp [ht, hr], ?_⟩
      intro i v b h
      rw [ht] at h
      simp only [SelectResult.received.injEq] at h
      obtain ⟨hi, _, _⟩ := h
      subst hi
      simp [hr]
    | nil =>
      by_cases hc : q.closed
      · have hr : ready q = true := by simp [ready, hc]
        have ht : trySelectAux n (q :: rest) = .received n 0 false := by
          unfold trySelectAux
          rw [hb]
          simp [hc]
        refine ⟨by simp [ht, hr], ?_⟩
        intro i v b h
        rw [ht] at h
        simp only [SelectResult.received.injEq] at h
        obtain ⟨hi, _, _⟩ := h
        subst hi
        simp [hr]
      · have hr : ready q = false := by simp [ready, hb, hc]
        have ht : trySelectAux n (q :: rest) = trySelectAux (n + 1) rest := by
          conv_lhs => rw [trySelectAux]
          rw [hb]
          simp [hc]
        obtain ⟨ih1, ih2⟩ := ih (n + 1)
        constructor
        · rw [ht, ih1]
          simp [hr]
        · intro i v b h
          rw [ht] at h
          obtain ⟨hni, hlt, hready⟩ := ih2 i v b h
          refine ⟨by omega, by simp; omega, ?_⟩
          have hin : i - n = (i - (n + 1)) + 1 := by omega
          rw [hin]
          simpa using hready

/-- Claim C6: the non-blocking select over a set of queues never blocks:
it reports nothing ready exactly when no queue is ready, and whenever it
returns an index and value, that index denotes a ready queue of the set. -/
theorem try_select_never_blocks (qs : List Queue) :
    (trySelect qs = .nothingReady ↔ ∀ q ∈ qs, ready q = false) ∧
    (∀ i v b, trySelect qs = .received i v b →
      i < qs.length ∧ ready (qs.getD i (Queue.new 0)) = true) := by
  obtain ⟨h1, h2⟩ := trySelectAux_spec qs 0
  refine ⟨h1, ?_⟩
  intro i v b h
  obtain ⟨_, hlt, hready⟩ := h2 i v b h
  rw [Nat.sub_zero] at hlt hready
  exact ⟨hlt, hready⟩

theorem try_select_never_blocks_witness :
    (1 < 2 ∧
      ready ([Queue.new 2, ⟨2, [7], false⟩].getD 1 (Queue.new 0)) = true) ∧
    trySelect [Queue.new 2, Queue.new 5] = .nothingReady :=
  ⟨(try_select_never_blocks [Queue.new 2, ⟨2, [7], false⟩]).2 1 7 true rfl,
   (try_select_never_blocks [Queue.new 2, Queue.new 5]).1.mpr (by decide)⟩

/-- Program state of one increment-by-1 task (the body of `deposit` in
`main.go`, specialised to amount 1 as in the spec's testable property):
acquire the mutex, read the counter, write the incremented value, release
the mutex on exit. -/
inductive ThreadState where
  | start
  | acquired
  | loaded (l : Nat)
  | stored
  | done
deriving DecidableEq, Repr

/-- A task in any of these states is inside the critical section and owns
the mutex. -/
def holdsLock : ThreadState → Bool
  | .acquired => true
  | .loaded _ => true
  | .stored => true
  | _ => false

/-- Global state of the mutex-protected counter demonstration: the shared
counter, the mutex owner (none when free), and the state of each of the
`n` increment tasks. -/
structure MutexState (n : Nat) where
  counter : Nat
  lock : Option (Fin n)
  threads : Fin n → ThreadState

/-- Initial state: counter 0, mutex free, every task about to run. -/
def MutexState.init (n : Nat) : MutexState n :=
  ⟨0, none, fun _ => ThreadState.start⟩

/-- One scheduler step: any task may move, provided the mutex discipline of
`deposit` is respected (acquire only when free; read, write and release
only while owning the mutex). -/
inductive MStep {n : Nat} : MutexState n → MutexState n → Prop
  | acquire (s : MutexState n) (i : Fin n) :
      s.lock = none → s.threads i = .start →
      MStep s ⟨s.counter, some i, Function.update s.threads i .acquired⟩
  | load (s : MutexState n) (i : Fin n) :
      s.lock = some i → s.threads i = .acquired →
      MStep s ⟨s.counter, s.lock,
        Function.update s.threads i (.loaded s.counter)⟩
  | store (s : MutexState n) (i : Fin n) (l : Nat) :
      s.lock = some i → s.threads i = .loaded l →
      MStep s ⟨l + 1, s.lock, Function.update s.threads i .stored⟩
  | release (s : MutexState n) (i : Fin n) :
      s.lock = some i → s.threads i = .stored →
      MStep s ⟨s.counter, none, Function.update s.threads i .done⟩

/-- States reachable from the initial state under any interleaving. -/
inductive MReachable (n : Nat) : MutexState n → Prop
  | init : MReachable n (MutexState.init n)
  | step {s s1 : MutexState n} :
      MReachable n s → MStep s s1 → MReachable n s1

/-- Number of tasks that have completed their increment. -/
def doneCount {n : Nat} (ts : Fin n → ThreadState) : Nat :=
  (Finset.univ.filter (fun i => ts i = ThreadState.done)).card

/-- The inductive invariant of the mutex-protected counter: only the mutex
owner is in the critical section, a loaded local equals the counter, and
the counter counts the completed increments (plus one for an owner that
has already written back). -/
def MInv {n : Nat} (s : MutexState n) : Prop :=
  (∀ i, holdsLock (s.threads i) = true → s.lock = some i) ∧
  (∀ i, s.lock = some i → holdsLock (s.threads i) = true) ∧
  (∀ i l, s.threads i = .loaded l → l = s.counter) ∧
  s.counter = doneCount s.threads +
    (match s.lock with
     | some i => (match s.threads i with | .stored => 1 | _ => 0)
     | none => 0)

theorem doneCount_update_ne {n : Nat} (ts : Fin n → ThreadState) (i : Fin n)
    (v : ThreadState) (h1 : ts i ≠ .done) (h2 : v ≠ .done) :
    doneCount (Function.update ts i v) = doneCount ts := by
  unfold doneCount
  congr 1
  ext j
  by_cases hj : j = i
  · subst hj
    simp [Function.update_same, h1, h2]
  · simp [Function.update_apply, hj]

theorem doneCount_update_done {n : Nat} (ts : Fin n → ThreadState)
    (i : Fin n) (h1 : ts i ≠ .done) :
    doneCount (Function.update ts i .done) = doneCount ts + 1 := by
  unfold doneCount
  have hins : Finset.univ.filter
        (fun j => Function.update ts i ThreadState.done j = ThreadState.done) =
      insert i (Finset.univ.filter (fun j => ts j = ThreadState.done)) := by
    ext j
    by_cases hj : j = i
    · subst hj
      simp [Function.update_same]
    · simp [Function.update_apply, hj]
  rw [hins, Finset.card_insert_of_not_mem (by simp [h1])]

theorem MInv_init (n : Nat) : MInv (MutexState.init n) := by
  refine ⟨?_, ?_, ?_, ?_⟩
  · intro i h
    simp [MutexState.init, holdsLock] at h
  · intro i h
    simp [MutexState.init] at h
  · intro i l h
    simp [MutexState.init] at h
  · simp [MutexState.init, doneCount]

theorem MInv_step {n : Nat} {s s1 : MutexState n} (hs : MStep s s1)
    (hinv : MInv s) : MInv s1 := by
  obtain ⟨inv1, inv2, inv3, inv4⟩ := hinv
  cases hs with
  | acquire i hl ht =>
    refine ⟨?_, ?_, ?_, ?_⟩
    · intro j hj
      dsimp only at hj ⊢
      by_cases hji : j = i
      · simp [hji]
      · rw [Function.update_apply, if_neg hji] at hj
        rw [inv1 j hj] at hl
        exact absurd hl (by simp)
    · intro j hj
      dsimp only at hj ⊢
      simp only [Option.some.injEq] at hj
      subst hj
      simp [holdsLock]
    · intro j l hj
      dsimp only at hj ⊢
      by_cases hji : j = i
      · subst hji
        rw [Function.update_same] at hj
        exact absurd hj (by simp)
      · rw [Function.update_apply, if_neg hji] at hj
        have hholds : holdsLock (s.threads j) = true := by rw [hj]; rfl
        rw [inv1 j hholds] at hl
        exact absurd hl (by simp)
    · dsimp only
      rw [Function.update_same,
        doneCount_update_ne s.threads i .acquired (by rw [ht]; simp) (by simp)]
      rw [hl] at inv4
      simpa using inv4
  | load i hl ht =>
    refine ⟨?_, ?_, ?_, ?_⟩
    · intro j hj
      dsimp only at hj ⊢
      by_cases hji : j = i
      · subst hji
        exact hl
      · rw [Function.update_apply, if_neg hji] at hj
        exact inv1 j hj
    · intro j hj
      dsimp only at hj ⊢
      rw [hl] at hj
      simp only [Option.some.injEq] at hj
      subst hj
      simp [holdsLock]
    · intro j l hj
      dsimp only at hj ⊢
      by_cases hji : j = i
      · subst hji
        rw [Function.update_same] at hj
        simp only [ThreadState.loaded.injEq] at hj
        simp [hj.symm]
      · rw [Function.update_apply, if_neg hji] at hj
        exact inv3 j l hj
    · dsimp only
      rw [hl]
      dsimp only
      rw [Function.update_same,
        doneCount_update_ne s.threads i (.loaded s.counter)
          (by rw [ht]; simp) (by simp)]
      rw [hl] at inv4
      dsimp only at inv4
      rw [ht] at inv4
      simpa using inv4
  | store i l hl ht =>
    refine ⟨?_, ?_, ?_, ?_⟩
    · intro j hj
      dsimp only at hj ⊢
      by_cases hji : j = i
      · subst hji
        exact hl
      · rw [Function.update_apply, if_neg hji] at hj
        exact inv1 j hj
    · intro j hj
      dsimp only at hj ⊢
      rw [hl] at hj
      simp only [Option.some.injEq] at hj
      subst hj
      simp [holdsLock]
    · intro j l2 hj
      dsimp only at hj ⊢
      by_cases hji : j = i
      · subst hji
        rw [Function.update_same] at hj
        exact absurd hj (by simp)
      · rw [Function.update_apply, if_neg hji] at hj
        have hholds : holdsLock (s.threads j) = true := by rw [hj]; rfl
        rw [inv1 j hholds] at hl
        simp only [Option.some.injEq] at hl
        exact absurd hl hji
    · dsimp only
      rw [hl]
      dsimp only
      rw [Function.update_same,
        doneCount_update_ne s.threads i .stored (by rw [ht]; simp) (by simp)]
      rw [hl] at inv4
      dsimp only at inv4
      rw [ht] at inv4
      have hlc : l = s.counter := inv3 i l ht
      simp at inv4 ⊢
      omega
  | release i hl ht =>
    refine ⟨?_, ?_, ?_, ?_⟩
    · intro j hj
      dsimp only at hj ⊢
      by_cases hji : j = i
      · subst hji
        rw [Function.update_same] at hj
        simp [holdsLock] at hj
      · rw [Function.update_apply, if_neg hji] at hj
        rw [inv1 j hj] at hl
        simp only [Option.some.injEq] at hl
        exact absurd hl hji
    · intro j hj
      dsimp only at hj
      simp at hj
    · intro j l hj
      dsimp only at hj ⊢
      by_cases hji : j = i
      · subst hji
        rw [Function.update_same] at hj
        exact absurd hj (by simp)
      · rw [Function.update_apply, if_neg hji] at hj
        exact inv3 j l hj
    · dsimp only
      rw [doneCount_update_done s.threads i (by rw [ht]; simp)]
      rw [hl] at inv4
      dsimp only at inv4
      rw [ht] at inv4
      simp at inv4 ⊢
      omega

theorem MReachable_inv {n : Nat} {s : MutexState n} (h : MReachable n s) :
    MInv s := by
  induction h with
  | init => exact MInv_init n
  | step _ hs ih => exact MInv_step hs ih

/-- Claim C7: running N concurrent increment-by-1 tasks, each taking the
mutex before touching the shared counter and releasing it on exit, from a
counter initialized at 0, yields exactly N once all tasks have completed,
under any interleaving. -/
theorem mutex_counter_exact {n : Nat} {s : MutexState n}
    (h : MReachable n s) (hdone : ∀ i, s.threads i = .done) :
    s.counter = n := by
  obtain ⟨_, inv2, _, inv4⟩ := MReachable_inv h
  have hlock : s.lock = none := by
    cases hl : s.lock with
    | none => rfl
    | some i =>
      have := inv2 i hl
      rw [hdone i] at this
      simp [holdsLock] at this
  rw [hlock] at inv4
  have hdc : doneCount s.threads = n := by
    unfold doneCount
    rw [Finset.filter_true_of_mem (fun i _ => hdone i)]
    simp
  simp only at inv4
  rw [hdc] at inv4
  omega

theorem mutex_counter_exact_witness :
    ∃ s : MutexState 2, MReachable 2 s ∧ (∀ i, s.threads i = .done) ∧
      s.counter = 2 := by
  have h0 : MReachable 2 (MutexState.init 2) := MReachable.init
  have h1 := MReachable.step h0
    (MStep.acquire (MutexState.init 2) 0 rfl rfl)
  have h2 := MReachable.step h1 (MStep.load _ 0 rfl (by decide))
  have h3 := MReachable.step h2 (MStep.store _ 0 0 rfl (by decide))
  have h4 := MReachable.step h3 (MStep.release _ 0 rfl (by decide))
  have h5 := MReachable.step h4 (MStep.acquire _ 1 rfl (by decide))
  have h6 := MReachable.step h5 (MStep.load _ 1 rfl (by decide))
  have h7 := MReachable.step h6 (MStep.store _ 1 1 rfl (by decide))
  have h8 := MReachable.step h7 (MStep.release _ 1 rfl (by decide))
  exact ⟨_, h8, by intro i; fin_cases i <;> decide,
    mutex_counter_exact h8 (by intro i; fin_cases i <;> decide)⟩

/-- A Go error value: anything with an Error() message.  `fmt.Errorf`
produces one whose message is the format string with its `%s`/`%v` verbs
interpolated, embedded here as string concatenation. -/
structure GoError where
  message : String
deriving DecidableEq, Repr

/-- `ooops` from main.go: always returns the error
`fmt.Errorf("damn thing exploded")`. -/
def ooops : Option GoError := some ⟨"damn thing exploded"⟩

/-- `errorWithContext` from main.go: calls `ooops`, and when it returned a
non-nil error, wraps it as
`fmt.Errorf("while trying to paint %s: %v", color, err)`. -/
def errorWithContext (color : String) : Option GoError :=
  match ooops with
  | some err => some ⟨"while trying to paint " ++ color ++ ": " ++ err.message⟩
  | none => none

/-- Claim C8: for every color, `errorWithContext color` returns a non-nil
error whose message is exactly "while trying to paint ", the color, ": ",
and the underlying message "damn thing exploded". -/
theorem error_with_context_wraps (color : String) :
    ∃ e, errorWithContext color = some e ∧
      e.message = "while trying to paint " ++ color ++ ": " ++
        "damn thing exploded" :=
  ⟨⟨"while trying to paint " ++ color ++ ": " ++ "damn thing exploded"⟩,
    rfl, rfl⟩

/-- Result of running a piece of Go code that may panic: either the panic
propagates with its message, or the code finishes normally with a value. -/
inductive PanicOr (α : Type) where
  | panicked (msg : String)
  | normal (a : α)
deriving Repr

/-- `ohNoes` from main.go: unconditionally panics. -/
def ohNoes : PanicOr Unit := .panicked "we are screwed"

/-- The body of `keepCalm` without its deferred handler: call `ohNoes`,
then print "too bad won't execute".  The value of a normal run is the list
of lines printed; a panic aborts the rest of the body, so nothing after
the `ohNoes()` call contributes. -/
def keepCalmBody : PanicOr (List String) :=
  match ohNoes with
  | .panicked m => .panicked m
  | .normal _ => .normal ["too bad won't execute"]

/-- `keepCalm` from main.go: runs its body under a deferred handler that
calls `recover()` and prints the recovered value, turning a panic into a
normal return (printing the panic message); on a normal body run the
deferred `recover()` yields nil and "<nil>" is printed. -/
def keepCalm : PanicOr (List String) :=
  match keepCalmBody with
  | .panicked m => .normal [m]
  | .normal out => .normal (out ++ ["<nil>"])

/-- Claim C9: the panic in `ohNoes` aborts the call stack, so the
statement after the `ohNoes()` call never executes (the body's outcome is
the bare panic, carrying no printed line), and the deferred recover
handler converts the abort into a normal return of `keepCalm`, whose only
printed line is the recovered panic message. -/
theorem keep_calm_recovers :
    ohNoes = .panicked "we are screwed" ∧
    keepCalmBody = .panicked "we are screwed" ∧
    keepCalm = .normal ["we are screwed"] :=
  ⟨rfl, rfl, rfl⟩

/-- The wrap of a mathematical integer into a signed 64-bit machine word
(Go's `int` on a 64-bit platform). -/
def wrap64 (z : Int) : Int := (z + 2 ^ 63) % 2 ^ 64 - 2 ^ 63

/-- `Division` from main_test.go: `return x / y`.  Go's `/` on int is
truncated division; dividing by zero is unguarded and panics at run time
(modelled as `none`); the single overflowing case, most negative value
divided by -1, wraps in two's complement per the Go specification. -/
def Division (x y : Int) : Option Int :=
  if y = 0 then none else some (wrap64 (Int.tdiv x y))

/-- Claim C10 (as stated) is false on the code: Go's `/` does not return
the integer quotient for the most negative 64-bit value divided by -1; it
wraps to the dividend itself. -/
theorem division_overflow_counterexample :
    Division (-(2 ^ 63)) (-1) = some (-(2 ^ 63)) ∧
    Int.tdiv (-(2 ^ 63)) (-1) = 2 ^ 63 ∧
    ((-(2 ^ 63) : Int)) ≠ 2 ^ 63 := by
  refine ⟨by decide, by decide, by decide⟩

/-- Claim C10 (amended): for y ≠ 0, Division returns the 64-bit truncated
quotient: whenever the integer quotient x / y is representable in 64 bits
it is returned exactly (so Division 4 2 = 2 and Division 10 2 = 5), and
the one unrepresentable case wraps; for y = 0 the division is unguarded
and the call aborts instead of returning a value. -/
theorem division_truncated_quotient :
    (∀ x y : Int, y ≠ 0 → Division x y = some (wrap64 (Int.tdiv x y))) ∧
    (∀ x y : Int, y ≠ 0 → -(2 ^ 63) ≤ Int.tdiv x y → Int.tdiv x y < 2 ^ 63 →
      Division x y = some (Int.tdiv x y)) ∧
    Division 4 2 = some 2 ∧ Division 10 2 = some 5 ∧
    (∀ x : Int, Division x 0 = none) := by
  have hwrap : ∀ z : Int, -(2 ^ 63) ≤ z → z < 2 ^ 63 → wrap64 z = z := by
    intro z h1 h2
    unfold wrap64
    rw [Int.emod_eq_of_lt (by omega) (by omega)]
    omega
  refine ⟨?_, ?_, by decide, by decide, ?_⟩
  · intro x y hy
    simp [Division, hy]
  · intro x y hy h1 h2
    simp [Division, hy, hwrap (Int.tdiv x y) h1 h2]
  · intro x
    simp [Division]

theorem division_truncated_quotient_witness :
    ((7 : Int) ≠ 0 ∧ Division 22 7 = some 3) ∧ Division 5 0 = none :=
  ⟨⟨by decide, division_truncated_quotient.2.1 22 7 (by decide) (by decide)
      (by decide)⟩,
   division_truncated_quotient.2.2.2.2 5⟩
